import Mathlib

/-!
Verification of the AingryBirds training core (replay buffers, reward
shaping, exploration schedule, checkpointing, socket framing, action
selection) against its natural-language specification.

The Python source is shallowly embedded: `collections.deque(maxlen=C)`
becomes a list with eviction from the front, the pseudo-random draws of
`random.sample` / `np.random.choice` / `np.random.random` become explicit
oracle arguments constrained by the library contracts, and floating-point
arithmetic is modelled over `ℚ` (or `ℝ` where real exponents `p ** alpha`
occur).
-/

namespace AingryBirds

/-- One append to a `collections.deque(maxlen = C)`: the element is added at
the right and, if the deque would exceed its `maxlen`, elements are dropped
from the left.  Embeds the body of `ReplayBuffer.add`
(`self.buffer.append(experience)` with `deque(maxlen=capacity)`). -/
def dequeAppend (C : ℕ) (buf : List α) (x : α) : List α :=
  let b := buf ++ [x]
  if C < b.length then b.drop (b.length - C) else b

/-- `ReplayBuffer` from `replay_buffer.py`: `deque(maxlen=capacity)` plus the
stored capacity. -/
structure ReplayBuffer (α : Type) where
  capacity : ℕ
  buffer : List α

namespace ReplayBuffer

/-- `ReplayBuffer.add`: append with `maxlen` eviction. -/
def add (rb : ReplayBuffer α) (x : α) : ReplayBuffer α :=
  { rb with buffer := dequeAppend rb.capacity rb.buffer x }

/-- Run a whole sequence of `add` calls, starting from the empty buffer. -/
def runAdds (C : ℕ) (xs : List α) : ReplayBuffer α :=
  xs.foldl add ⟨C, []⟩

/-- `ReplayBuffer.sample`: `random.sample(self.buffer, min(batch_size,
len(self.buffer)))`.  The pseudo-random draw of `random.sample` is modelled
by the index oracle `pick`; the library contract (a list of
`min(batch_size, size)` distinct in-range positions) appears as hypotheses
in the theorems about this function. -/
def sampleModel [Inhabited α] (buffer : List α) (pick : List ℕ) : List α :=
  pick.map (fun i => buffer.getD i default)

/-- `ReplayBuffer.clear`: `self.buffer.clear()`. -/
def clear (rb : ReplayBuffer α) : ReplayBuffer α :=
  { rb with buffer := [] }

end ReplayBuffer

theorem dequeAppend_eq (C : ℕ) (buf : List α) (x : α) :
    dequeAppend C buf x = (buf ++ [x]).drop (buf.length + 1 - C) := by
  unfold dequeAppend
  by_cases h : C < (buf ++ [x]).length
  · have h' : C < buf.length + 1 := by simpa using h
    simp only [List.length_append, List.length_cons, List.length_nil, if_pos h']
  · have h' : ¬ C < buf.length + 1 := by simpa using h
    have h0 : buf.length + 1 - C = 0 := by omega
    simp only [List.length_append, List.length_cons, List.length_nil, if_neg h', h0,
      List.drop_zero]

theorem foldl_dequeAppend (C : ℕ) :
    ∀ (xs acc : List α), acc.length ≤ C →
      xs.foldl (dequeAppend C) acc = (acc ++ xs).drop (acc.length + xs.length - C) := by
  intro xs
  induction xs with
  | nil =>
    intro acc h
    simp [Nat.sub_eq_zero_of_le h]
  | cons x xs ih =>
    intro acc h
    have hA : dequeAppend C acc x = (acc ++ [x]).drop (acc.length + 1 - C) :=
      dequeAppend_eq C acc x
    have hAlen : (dequeAppend C acc x).length = acc.length + 1 - (acc.length + 1 - C) := by
      rw [hA, List.length_drop]
      simp
    have hAle : (dequeAppend C acc x).length ≤ C := by omega
    calc (x :: xs).foldl (dequeAppend C) acc
        = xs.foldl (dequeAppend C) (dequeAppend C acc x) := rfl
      _ = ((dequeAppend C acc x) ++ xs).drop
            ((dequeAppend C acc x).length + xs.length - C) := ih _ hAle
      _ = (acc ++ x :: xs).drop (acc.length + (x :: xs).length - C) := by
          rw [hA]
          have hd : acc.length + 1 - C ≤ (acc ++ [x]).length := by
            simp only [List.length_append, List.length_singleton]
            omega
          rw [← List.drop_append_of_le_length hd, List.drop_drop]
          have harr : (acc.length + 1 - C)
                + (((acc ++ [x]).drop (acc.length + 1 - C)).length + xs.length - C)
                = acc.length + (x :: xs).length - C := by
            simp only [List.length_drop, List.length_append, List.length_cons,
              List.length_nil]
            omega
          rw [harr]
          congr 1
          simp

theorem foldl_add_spec (xs : List α) :
    ∀ rb : ReplayBuffer α,
      (xs.foldl ReplayBuffer.add rb).capacity = rb.capacity ∧
      (xs.foldl ReplayBuffer.add rb).buffer =
        xs.foldl (dequeAppend rb.capacity) rb.buffer := by
  induction xs with
  | nil => intro rb; exact ⟨rfl, rfl⟩
  | cons x xs ih =>
    intro rb
    simpa [ReplayBuffer.add] using ih (ReplayBuffer.add rb x)

theorem runAdds_buffer (C : ℕ) (xs : List α) :
    (ReplayBuffer.runAdds C xs).buffer = xs.drop (xs.length - C) := by
  have h := (foldl_add_spec xs (⟨C, []⟩ : ReplayBuffer α)).2
  unfold ReplayBuffer.runAdds
  rw [h]
  simpa using foldl_dequeAppend C xs [] (by simp)

theorem dequeAppend_length (C : ℕ) (l : List α) (x : α) :
    (dequeAppend C l x).length = min (l.length + 1) C := by
  rw [dequeAppend_eq, List.length_drop]
  simp only [List.length_append, List.length_cons, List.length_nil]
  omega

theorem mem_dequeAppend (C : ℕ) (l : List α) (x y : α)
    (h : y ∈ dequeAppend C l x) : y ∈ l ∨ y = x := by
  rw [dequeAppend_eq] at h
  have h' := List.mem_of_mem_drop h
  rcases List.mem_append.mp h' with h1 | h1
  · exact Or.inl h1
  · exact Or.inr (List.mem_singleton.mp h1)

/-- C1: for every capacity `C > 0` and every sequence of `n > C` add calls,
the store holds at most `C` records at every point (i.e. after every prefix
of the sequence), and after all `n` adds it holds exactly the last `C`
inserted records in insertion (FIFO) order. -/
theorem replayBuffer_capacity_fifo {α : Type} (C : ℕ) (hC : 0 < C) (xs : List α)
    (hn : C < xs.length) :
    (∀ ys zs : List α, xs = ys ++ zs → (ReplayBuffer.runAdds C ys).buffer.length ≤ C) ∧
    (ReplayBuffer.runAdds C xs).buffer = xs.drop (xs.length - C) ∧
    (ReplayBuffer.runAdds C xs).buffer.length = C := by
  refine ⟨?_, runAdds_buffer C xs, ?_⟩
  · intro ys zs _
    rw [runAdds_buffer, List.length_drop]
    omega
  · rw [runAdds_buffer, List.length_drop]
    omega

theorem replayBuffer_capacity_fifo_witness :
    (ReplayBuffer.runAdds 2 ([10, 20, 30] : List ℕ)).buffer = [20, 30] ∧
    (ReplayBuffer.runAdds 2 ([10, 20] : List ℕ)).buffer.length ≤ 2 := by
  have h := replayBuffer_capacity_fifo 2 (by decide) ([10, 20, 30] : List ℕ) (by decide)
  exact ⟨h.2.1.trans (by decide), h.1 [10, 20] [30] (by decide)⟩

/-- `self.epsilon = 1e-6` from `PrioritizedReplayBuffer.__init__`. -/
def pbEpsilon : ℚ := 1 / 1000000

/-- `PrioritizedReplayBuffer` from `replay_buffer.py`: the inherited
`deque(maxlen=capacity)` record buffer plus the parallel
`deque(maxlen=capacity)` of priorities. -/
structure PrioritizedReplayBuffer (α : Type) where
  capacity : ℕ
  buffer : List α
  priorities : List ℚ

namespace PrioritizedReplayBuffer

/-- `max(self.priorities) if self.priorities else 1.0`, the priority used by
`add` when none is supplied. -/
def defaultPriority (ps : List ℚ) : ℚ :=
  match ps with
  | [] => 1
  | p :: rest => rest.foldl max p

/-- `PrioritizedReplayBuffer.add`: appends the experience and its priority
to the two `maxlen`-bounded deques; an omitted priority defaults to
`defaultPriority`. -/
def add (pb : PrioritizedReplayBuffer α) (x : α) (priority : Option ℚ) :
    PrioritizedReplayBuffer α :=
  let p := match priority with
    | some p => p
    | none => defaultPriority pb.priorities
  { pb with
    buffer := dequeAppend pb.capacity pb.buffer x
    priorities := dequeAppend pb.capacity pb.priorities p }

/-- `PrioritizedReplayBuffer.update_priorities`: for each paired
`(idx, priority)`, `self.priorities[idx] = priority + self.epsilon`.
(An out-of-range index raises `IndexError` in Python; `List.set` leaves the
list unchanged there, which preserves the properties proved below.) -/
def update_priorities (pb : PrioritizedReplayBuffer α) (l : List (ℕ × ℚ)) :
    PrioritizedReplayBuffer α :=
  { pb with
    priorities := l.foldl (fun ps ip => ps.set ip.1 (ip.2 + pbEpsilon)) pb.priorities }

/-- The inherited `ReplayBuffer.clear`: `self.buffer.clear()` empties the
record buffer only; the `priorities` deque is not touched. -/
def clear (pb : PrioritizedReplayBuffer α) : PrioritizedReplayBuffer α :=
  { pb with buffer := ([] : List α) }

end PrioritizedReplayBuffer

/-- One operation on a `PrioritizedReplayBuffer`.  `sample` reads the state
and annotates the returned records but does not change the buffer or the
priorities, so as a state transformer it is the identity. -/
inductive BufferOp (α : Type) where
  | add (x : α) (priority : Option ℚ)
  | updatePriorities (l : List (ℕ × ℚ))
  | clear
  | sample (n : ℕ)

def applyOp (pb : PrioritizedReplayBuffer α) : BufferOp α → PrioritizedReplayBuffer α
  | .add x p => pb.add x p
  | .updatePriorities l => pb.update_priorities l
  | .clear => pb.clear
  | .sample _ => pb

/-- Run a sequence of operations starting from a freshly constructed
(empty) prioritized buffer of capacity `C`. -/
def runOps (C : ℕ) (ops : List (BufferOp α)) : PrioritizedReplayBuffer α :=
  ops.foldl applyOp ⟨C, [], []⟩

/-- The invariant claimed for the prioritized store: the priority array has
exactly the length of the record buffer, and every stored priority is at
least `epsilon`. -/
def pbInvariant (pb : PrioritizedReplayBuffer α) : Prop :=
  pb.priorities.length = pb.buffer.length ∧ ∀ p ∈ pb.priorities, pbEpsilon ≤ p

/-- Side conditions under which the invariant is actually preserved:
no `clear` (it empties only the record buffer), explicit add priorities at
least `epsilon`, and nonnegative `update_priorities` arguments. -/
def goodOp : BufferOp α → Prop
  | .add _ (some p) => pbEpsilon ≤ p
  | .add _ none => True
  | .updatePriorities l => ∀ ip ∈ l, 0 ≤ ip.2
  | .clear => False
  | .sample _ => True

theorem foldl_max_init (l : List ℚ) : ∀ a : ℚ, a ≤ l.foldl max a := by
  induction l with
  | nil => intro a; simp
  | cons x l ih =>
    intro a
    calc a ≤ max a x := le_max_left _ _
      _ ≤ l.foldl max (max a x) := ih _

theorem foldl_max_mem (l : List ℚ) : ∀ (a x : ℚ), x ∈ l → x ≤ l.foldl max a := by
  induction l with
  | nil => intro a x hx; exact absurd hx (List.not_mem_nil x)
  | cons y l ih =>
    intro a x hx
    rcases List.mem_cons.mp hx with rfl | hx
    · calc x ≤ max a x := le_max_right _ _
        _ ≤ l.foldl max (max a x) := foldl_max_init l _
    · exact ih (max a y) x hx

theorem le_defaultPriority (ps : List ℚ) (p : ℚ) (hp : p ∈ ps) :
    p ≤ PrioritizedReplayBuffer.defaultPriority ps := by
  cases ps with
  | nil => exact absurd hp (List.not_mem_nil p)
  | cons q rest =>
    unfold PrioritizedReplayBuffer.defaultPriority
    rcases List.mem_cons.mp hp with rfl | hp
    · exact foldl_max_init rest p
    · exact foldl_max_mem rest q p hp

theorem epsilon_le_defaultPriority (ps : List ℚ)
    (h : ∀ p ∈ ps, pbEpsilon ≤ p) :
    pbEpsilon ≤ PrioritizedReplayBuffer.defaultPriority ps := by
  cases ps with
  | nil =>
    unfold PrioritizedReplayBuffer.defaultPriority pbEpsilon
    norm_num
  | cons q rest =>
    exact le_trans (h q (List.mem_cons_self q rest)) (le_defaultPriority _ q (List.mem_cons_self q rest))

theorem length_foldl_set (l : List (ℕ × ℚ)) :
    ∀ ps : List ℚ, (l.foldl (fun ps ip => ps.set ip.1 (ip.2 + pbEpsilon)) ps).length
      = ps.length := by
  induction l with
  | nil => intro ps; rfl
  | cons ip l ih =>
    intro ps
    simp only [List.foldl_cons]
    rw [ih, List.length_set]

theorem mem_foldl_set (l : List (ℕ × ℚ)) :
    ∀ (ps : List ℚ) (q : ℚ),
      q ∈ l.foldl (fun ps ip => ps.set ip.1 (ip.2 + pbEpsilon)) ps →
      q ∈ ps ∨ ∃ ip ∈ l, q = ip.2 + pbEpsilon := by
  induction l with
  | nil => intro ps q hq; exact Or.inl hq
  | cons ip l ih =>
    intro ps q hq
    simp only [List.foldl_cons] at hq
    rcases ih _ q hq with hq' | ⟨ip', hip', rfl⟩
    · rcases List.mem_or_eq_of_mem_set hq' with h | h
      · exact Or.inl h
      · exact Or.inr ⟨ip, List.mem_cons_self ip l, h⟩
    · exact Or.inr ⟨ip', List.mem_cons_of_mem ip hip', rfl⟩

theorem applyOp_invariant (pb : PrioritizedReplayBuffer α) (op : BufferOp α)
    (hop : goodOp op) (hinv : pbInvariant pb) : pbInvariant (applyOp pb op) := by
  obtain ⟨hlen, hmem⟩ := hinv
  cases op with
  | add x p? =>
    constructor
    · simp only [applyOp, PrioritizedReplayBuffer.add, dequeAppend_length, hlen]
    · intro q hq
      simp only [applyOp, PrioritizedReplayBuffer.add] at hq
      rcases mem_dequeAppend _ _ _ _ hq with h | rfl
      · exact hmem q h
      · cases p? with
        | some p => exact hop
        | none => exact epsilon_le_defaultPriority pb.priorities hmem
  | updatePriorities l =>
    constructor
    · simp only [applyOp, PrioritizedReplayBuffer.update_priorities, length_foldl_set, hlen]
    · intro q hq
      simp only [applyOp, PrioritizedReplayBuffer.update_priorities] at hq
      rcases mem_foldl_set l pb.priorities q hq with h | ⟨ip, hip, rfl⟩
      · exact hmem q h
      · have h0 : (0 : ℚ) ≤ ip.2 := hop ip hip
        linarith
  | clear => exact hop.elim
  | sample n => exact ⟨hlen, hmem⟩

theorem foldl_applyOp_invariant (ops : List (BufferOp α)) :
    ∀ pb : PrioritizedReplayBuffer α, pbInvariant pb → (∀ op ∈ ops, goodOp op) →
      pbInvariant (ops.foldl applyOp pb) := by
  induction ops with
  | nil => intro pb h _; exact h
  | cons op ops ih =>
    intro pb h hops
    simp only [List.foldl_cons]
    exact ih _ (applyOp_invariant pb op (hops op (List.mem_cons_self op ops)) h)
      (fun op' hop' => hops op' (List.mem_cons_of_mem op hop'))

/-- C2 (counterexample): the claimed invariant fails as stated.  After
`add` followed by `clear`, the priority deque still holds one entry while
the record buffer is empty (the inherited `clear` empties only the record
buffer); and `add` with an explicit priority `0` stores a priority below
`epsilon`. -/
theorem prioritized_invariant_cex :
    ¬ pbInvariant (runOps 10 [BufferOp.add (0 : ℕ) none, BufferOp.clear]) ∧
    ¬ pbInvariant (runOps 10 [BufferOp.add (0 : ℕ) (some 0)]) := by
  constructor
  · intro h
    exact absurd h.1 (by decide)
  · intro h
    have := h.2 0 (by decide)
    exact absurd this (by norm_num [pbEpsilon])

/-- C2 (amended): for every sequence of `add` / `update_priorities` /
`sample` operations in which every explicitly supplied add priority is at
least `epsilon` and every `update_priorities` value is nonnegative — and
which avoids `clear`, since the inherited `clear` empties only the record
buffer — the priority deque has exactly the length of the record buffer and
every stored priority is at least `epsilon`. -/
theorem prioritized_invariant (C : ℕ) (ops : List (BufferOp α))
    (hops : ∀ op ∈ ops, goodOp op) : pbInvariant (runOps C ops) :=
  foldl_applyOp_invariant ops _
    ⟨rfl, fun p hp => absurd hp (List.not_mem_nil p)⟩ hops

theorem prioritized_invariant_witness :
    pbInvariant (runOps 5 [BufferOp.add (7 : ℕ) none, BufferOp.add 8 (some 1),
      BufferOp.updatePriorities [(0, 2)], BufferOp.sample 3]) :=
  prioritized_invariant 5 _ (by
    intro op hop
    fin_cases hop
    · trivial
    · show pbEpsilon ≤ 1
      norm_num [pbEpsilon]
    · intro ip hip
      rw [List.mem_singleton] at hip
      subst hip
      norm_num
    · trivial)

/-- C9: when `add` is called with the priority omitted, the priority stored
for the new record (appended at the tail of the priority deque, after any
eviction) is `defaultPriority`, which is the maximum priority currently
present, is `1.0` on an empty store, and dominates every pre-existing
priority. -/
theorem prioritized_add_defaultPriority {α : Type} (pb : PrioritizedReplayBuffer α)
    (x : α) (hC : 0 < pb.capacity) :
    (pb.add x none).priorities
      = pb.priorities.drop (pb.priorities.length + 1 - pb.capacity)
        ++ [PrioritizedReplayBuffer.defaultPriority pb.priorities] ∧
    (pb.priorities = [] → PrioritizedReplayBuffer.defaultPriority pb.priorities = 1) ∧
    ∀ p ∈ pb.priorities, p ≤ PrioritizedReplayBuffer.defaultPriority pb.priorities := by
  refine ⟨?_, ?_, fun p hp => le_defaultPriority pb.priorities p hp⟩
  · simp only [PrioritizedReplayBuffer.add]
    rw [dequeAppend_eq]
    exact List.drop_append_of_le_length (by omega)
  · intro h
    rw [h]
    rfl

theorem prioritized_add_defaultPriority_witness :
    ((⟨3, [7, 8], [2, 5]⟩ : PrioritizedReplayBuffer ℕ).add 9 none).priorities
      = [2, 5, 5] ∧
    (2 : ℚ) ≤ PrioritizedReplayBuffer.defaultPriority [2, 5] := by
  have h := prioritized_add_defaultPriority (⟨3, [7, 8], [2, 5]⟩ : PrioritizedReplayBuffer ℕ)
    9 (by decide)
  exact ⟨h.1.trans (by decide), h.2.2 2 (by decide)⟩

/-- The `rewards` group of the configuration, as read by
`AngryBirdsTrainer.compute_reward`. -/
structure RewardConfig where
  hit_target : ℚ
  miss_penalty : ℚ
  structural_damage : ℚ
  pig_destroyed : ℚ
  level_complete : ℚ
  efficiency_bonus : ℚ
  time_penalty : ℚ

/-- The `info` map delivered by the simulator.  Each field is optional
because `compute_reward` reads it with `info.get(key, default)`. -/
structure StepInfo where
  hit_target : Option Bool
  damage : Option ℚ
  pigs_destroyed : Option ℚ
  level_complete : Option Bool
  birds_used : Option ℚ
  time_taken : Option ℚ

/-- `AngryBirdsTrainer.compute_reward`, statement by statement: start from
`0.0`, add the hit bonus or the miss penalty, add `damage *
structural_damage`, add `pigs_destroyed * pig_destroyed`, on
`level_complete` add the completion bonus and (when `birds_used < 3`)
`efficiency_bonus * (3 - birds_used)`, and finally add
`time_taken * time_penalty`. -/
def compute_reward (cfg : RewardConfig) (info : StepInfo) : ℚ :=
  let reward : ℚ := 0
  let reward := reward +
    (if info.hit_target.getD false then cfg.hit_target else cfg.miss_penalty)
  let damage := info.damage.getD 0
  let reward := reward + damage * cfg.structural_damage
  let pigs_destroyed := info.pigs_destroyed.getD 0
  let reward := reward + pigs_destroyed * cfg.pig_destroyed
  let reward :=
    if info.level_complete.getD false then
      let birds_used := info.birds_used.getD 0
      let reward := reward + cfg.level_complete
      if birds_used < 3 then reward + cfg.efficiency_bonus * (3 - birds_used)
      else reward
    else reward
  let time_taken := info.time_taken.getD 0
  reward + time_taken * cfg.time_penalty

/-- The additive composition asserted by the specification for the reward
shaper, written from the spec's words (for comparison with
`compute_reward`). -/
def shapeFormula (cfg : RewardConfig) (info : StepInfo) : ℚ :=
  (if info.hit_target.getD false then cfg.hit_target else cfg.miss_penalty)
    + info.damage.getD 0 * cfg.structural_damage
    + info.pigs_destroyed.getD 0 * cfg.pig_destroyed
    + (if info.level_complete.getD false then
        cfg.level_complete
          + (if info.birds_used.getD 0 < 3 then
              cfg.efficiency_bonus * (3 - info.birds_used.getD 0)
             else 0)
       else 0)
    + info.time_taken.getD 0 * cfg.time_penalty

/-- C3: the reward computation is exactly the additive composition of the
spec, with every missing info field defaulting to zero/false, and on the
documented example configuration and info map it evaluates to `165`. -/
theorem compute_reward_spec :
    (∀ (cfg : RewardConfig) (info : StepInfo),
        compute_reward cfg info = shapeFormula cfg info) ∧
    compute_reward
      ⟨10, -5, 1/10, 20, 100, 15, -1/2⟩
      ⟨some true, some 50, some 2, some true, some 2, some 10⟩ = 165 := by
  constructor
  · intro cfg info
    simp only [compute_reward, shapeFormula]
    split_ifs <;> ring
  · norm_num [compute_reward, Option.getD]

/-- `max(end_rate, rate * decay_factor)`, the per-episode exploration-rate
update from `AngryBirdsTrainer.train`. -/
def decayExploration (endRate decay r : ℚ) : ℚ := max endRate (r * decay)

/-- The exploration rate after `n` completed episodes, starting from the
configured `exploration_rate_start`. -/
def explorationRate (endRate decay r0 : ℚ) : ℕ → ℚ
  | 0 => r0
  | n + 1 => decayExploration endRate decay (explorationRate endRate decay r0 n)

/-- C5: with a decay factor at most `1` and a nonnegative floor not above
the starting rate, the exploration-rate sequence is non-increasing and
never falls below the configured `end_rate` floor, for every episode
count. -/
theorem exploration_monotone (endRate decay r0 : ℚ) (h0 : 0 ≤ endRate)
    (hr : endRate ≤ r0) (hd : decay ≤ 1) :
    ∀ n, explorationRate endRate decay r0 (n + 1) ≤ explorationRate endRate decay r0 n ∧
      endRate ≤ explorationRate endRate decay r0 n := by
  have hfloor : ∀ n, endRate ≤ explorationRate endRate decay r0 n := by
    intro n
    induction n with
    | zero => exact hr
    | succ n _ => exact le_max_left _ _
  intro n
  refine ⟨?_, hfloor n⟩
  have hnn : 0 ≤ explorationRate endRate decay r0 n := le_trans h0 (hfloor n)
  simp only [explorationRate, decayExploration]
  exact max_le (hfloor n) (mul_le_of_le_one_right hnn hd)

theorem exploration_monotone_witness :
    explorationRate (1/100) (1/2) 1 1 ≤ explorationRate (1/100) (1/2) 1 0 ∧
    (1/100 : ℚ) ≤ explorationRate (1/100) (1/2) 1 0 :=
  exploration_monotone (1/100) (1/2) 1 (by norm_num) (by norm_num) (by norm_num) 0

/-- The `environment` ranges read by `AngryBirdsTrainer.select_action` for
the uniform-random exploration branch. -/
structure EnvConfig where
  angle_range : ℚ × ℚ
  force_range : ℚ × ℚ

/-- `AngryBirdsTrainer.select_action`: with probability `exploration_rate`
(and only when `training` is true) take a uniform-random action within the
configured ranges, otherwise query the policy network.  The draw of
`np.random.random()` is the oracle `r`, and the two `np.random.uniform`
draws are the oracles `randAngle` and `randForce`. -/
def select_action {σ : Type} (cfg : EnvConfig) (exploration_rate : ℚ)
    (model : σ → ℚ × ℚ) (training : Bool) (r randAngle randForce : ℚ)
    (st : σ) : ℚ × ℚ :=
  if training = true ∧ r < exploration_rate then (randAngle, randForce)
  else model st

/-- C10: with `training = False` the exploration branch is never taken —
for every state, every exploration rate and every value of the random
draws, the returned action is the policy model's action. -/
theorem select_action_inference {σ : Type} (cfg : EnvConfig)
    (exploration_rate : ℚ) (model : σ → ℚ × ℚ) (r a f : ℚ) (st : σ) :
    select_action cfg exploration_rate model false r a f st = model st := by
  simp [select_action]

/-- Outcome of `UnityEnvironmentWrapper.receive_data`.  `closed` is the
`ConnectionError` raised on a zero-byte read, `unpackError` is the
`struct.error` raised by `struct.unpack('!I', ...)` on fewer than 4 bytes,
`blocked` models a socket that never delivers another chunk (the blocking
`recv` simply never returns), and `ok` carries the raw payload bytes. -/
inductive RecvOutcome where
  | closed
  | unpackError
  | blocked
  | ok (payload : List ℕ)
  deriving DecidableEq

/-- `struct.unpack('!I', b)` on exactly 4 bytes: big-endian unsigned
32-bit decoding. -/
def decodeLen (b : List ℕ) : ℕ :=
  match b with
  | [b0, b1, b2, b3] => ((b0 * 256 + b1) * 256 + b2) * 256 + b3
  | _ => 0

/-- The payload loop of `receive_data`: `while bytes_received <
message_length: chunk = self.socket.recv(min(message_length -
bytes_received, 4096))`, failing with `ConnectionError` when a read returns
zero bytes.  The socket is modelled by `stream`, the list of successive
`recv` results; `recv(k)` returns at most `k` bytes, so each oracle chunk
is truncated with `take`. -/
def recvAll : List (List ℕ) → ℕ → RecvOutcome
  | _, 0 => .ok []
  | [], _ + 1 => .blocked
  | c :: rest, n + 1 =>
    let chunk := c.take (min (n + 1) 4096)
    if chunk.isEmpty then .closed
    else
      match recvAll rest (n + 1 - chunk.length) with
      | .ok p => .ok (chunk ++ p)
      | e => e

/-- `UnityEnvironmentWrapper.receive_data`: a single `recv(4)` for the
length prefix — zero bytes raise `ConnectionError`, fewer than 4 bytes make
`struct.unpack` fail — then the payload loop for exactly the decoded
number of bytes. -/
def receive_data : List (List ℕ) → RecvOutcome
  | [] => .blocked
  | c :: rest =>
    let length_data := c.take 4
    if length_data.isEmpty then .closed
    else if length_data.length = 4 then recvAll rest (decodeLen length_data)
    else .unpackError

theorem recvAll_ok_length :
    ∀ (stream : List (List ℕ)) (n : ℕ) (p : List ℕ),
      recvAll stream n = .ok p → p.length = n := by
  intro stream
  induction stream with
  | nil =>
    intro n p h
    match n, h with
    | 0, h => cases h; rfl
  | cons c rest ih =>
    intro n p h
    match n, h with
    | 0, h => cases h; rfl
    | n + 1, h =>
      simp only [recvAll] at h
      by_cases hc : (c.take (min (n + 1) 4096)).isEmpty
      · rw [if_pos hc] at h
        cases h
      · rw [if_neg hc] at h
        cases hrec : recvAll rest (n + 1 - (c.take (min (n + 1) 4096)).length) with
        | ok q =>
          rw [hrec] at h
          cases h
          have hq := ih _ q hrec
          have hchunk : (c.take (min (n + 1) 4096)).length ≤ n + 1 := by
            have := List.length_take_le (min (n + 1) 4096) c
            omega
          simp only [List.length_append, hq]
          omega
        | closed => rw [hrec] at h; cases h
        | unpackError => rw [hrec] at h; cases h
        | blocked => rw [hrec] at h; cases h

/-- C4 (counterexample): a first `recv(4)` that delivers only 2 bytes makes
the receive fail with a `struct.unpack` error even though the remaining 2
prefix bytes are available in the next chunk — the code does not loop on a
partial length-prefix read, contradicting the claim, and the failure is not
the connection-closed error. -/
theorem receive_data_cex :
    receive_data [[0, 5], [0, 7]] = RecvOutcome.unpackError ∧
    receive_data [[0, 5], [0, 7]] ≠ RecvOutcome.closed ∧
    (∀ p, receive_data [[0, 5], [0, 7]] ≠ RecvOutcome.ok p) := by
  refine ⟨by decide, by decide, ?_⟩
  intro p h
  rw [show receive_data [[0, 5], [0, 7]] = RecvOutcome.unpackError from by decide] at h
  cases h

/-- C4 (amended): the length prefix is read with a single `recv(4)` call,
not a loop — a zero-byte result there fails with connection-closed, and a
partial (1–3 byte) result fails with a `struct.unpack` error; the payload
is then read by a loop for exactly the decoded number of bytes (every
successful receive returns a payload of exactly the decoded length), and a
zero-byte read on any payload iteration fails with connection-closed. -/
theorem receive_data_spec :
    (∀ c rest, c.take 4 = [] → receive_data (c :: rest) = RecvOutcome.closed) ∧
    (∀ c rest, c.take 4 ≠ [] → (c.take 4).length ≠ 4 →
      receive_data (c :: rest) = RecvOutcome.unpackError) ∧
    (∀ c rest, (c.take 4).length = 4 →
      receive_data (c :: rest) = recvAll rest (decodeLen (c.take 4))) ∧
    (∀ stream n p, recvAll stream n = .ok p → p.length = n) ∧
    (∀ c rest n, 0 < n → c.take (min n 4096) = [] →
      recvAll (c :: rest) n = RecvOutcome.closed) := by
  refine ⟨?_, ?_, ?_, recvAll_ok_length, ?_⟩
  · intro c rest h
    simp only [receive_data, h, List.isEmpty_nil, if_true]
  · intro c rest h h4
    have hne : (c.take 4).isEmpty = false := by
      cases hc : c.take 4 with
      | nil => exact absurd hc h
      | cons a l => simp [hc]
    simp only [receive_data, hne, Bool.false_eq_true, if_false, if_neg h4]
  · intro c rest h4
    have hne : (c.take 4).isEmpty = false := by
      cases hc : c.take 4 with
      | nil => rw [hc] at h4; cases h4
      | cons a l => simp [hc]
    simp only [receive_data, hne, Bool.false_eq_true, if_false, if_pos h4]
  · intro c rest n hn hc
    match n, hn with
    | n + 1, _ =>
      simp only [recvAll, hc, List.isEmpty_nil, if_true]

theorem receive_data_spec_witness :
    receive_data [[]] = RecvOutcome.closed ∧
    receive_data [[0, 0, 0, 3], [1, 2], [3]] = RecvOutcome.ok [1, 2, 3] ∧
    ([1, 2, 3] : List ℕ).length = 3 ∧
    recvAll [[], [1]] 1 = RecvOutcome.closed := by
  refine ⟨receive_data_spec.1 [] [] rfl, by decide, ?_, ?_⟩
  · exact receive_data_spec.2.2.2.1 [[1, 2], [3]] 3 [1, 2, 3] (by decide)
  · exact receive_data_spec.2.2.2.2 [] [[1]] 1 (by decide) rfl

/-- The bundle written by `AngryBirdsTrainer.save_model` via `torch.save`:
episode key, network `state_dict`, optimizer `state_dict`, exploration rate
and the full reward history.  `torch.save` / `torch.load` round-tripping of
this dict is the serialization library's contract and is modelled as the
identity on the bundle; `Model` and `Optim` stand for the opaque serialized
states. -/
structure Checkpoint (Tag Model Optim : Type) where
  episode : Tag
  model_state_dict : Model
  optimizer_state_dict : Optim
  exploration_rate : ℚ
  episode_rewards : List ℚ

/-- The trainer state read by `save_model` and written by `load_model`. -/
structure TrainerState (Model Optim : Type) where
  policy_network : Model
  optimizer : Optim
  exploration_rate : ℚ
  episode_rewards : List ℚ

/-- `AngryBirdsTrainer.save_model`: writes the bundle to the deterministic
path keyed by the episode argument (`model_episode_{episode}.pth`),
overwriting whatever was stored under that key.  The checkpoint directory
is modelled as a map from key to stored bundle. -/
def save_model {Tag Model Optim : Type} [DecidableEq Tag]
    (store : Tag → Option (Checkpoint Tag Model Optim))
    (t : TrainerState Model Optim) (episode : Tag) :
    Tag → Option (Checkpoint Tag Model Optim) :=
  fun k =>
    if k = episode then
      some ⟨episode, t.policy_network, t.optimizer, t.exploration_rate, t.episode_rewards⟩
    else store k

/-- `AngryBirdsTrainer.load_model`: restores network weights, optimizer
state, exploration rate and reward history from the loaded checkpoint into
the trainer. -/
def load_model {Tag Model Optim : Type} (t : TrainerState Model Optim)
    (c : Checkpoint Tag Model Optim) : TrainerState Model Optim :=
  { t with
    policy_network := c.model_state_dict
    optimizer := c.optimizer_state_dict
    exploration_rate := c.exploration_rate
    episode_rewards := c.episode_rewards }

/-- C6: saving a checkpoint and loading it back recovers an equivalent
bundle: the stored bundle carries the episode key, and applying `load` to
it (in any trainer) restores exactly the saved model state, optimizer
state, exploration rate and full reward history. -/
theorem save_load_roundtrip {Tag Model Optim : Type} [DecidableEq Tag]
    (store : Tag → Option (Checkpoint Tag Model Optim))
    (t t' : TrainerState Model Optim) (episode : Tag) :
    ∃ c, save_model store t episode episode = some c ∧
      c.episode = episode ∧
      load_model t' c
        = ⟨t.policy_network, t.optimizer, t.exploration_rate, t.episode_rewards⟩ := by
  refine ⟨⟨episode, t.policy_network, t.optimizer, t.exploration_rate,
    t.episode_rewards⟩, ?_, rfl, rfl⟩
  simp [save_model]

/-- C8 (counterexample): on a store of size `1`, a request of `n = 0`
returns the empty batch; the claimed equivalence "empty iff the store is
empty" fails in the right-to-left-only direction it asserts.  The empty
index list is the valid `random.sample` draw here because
`min(0, 1) = 0`. -/
theorem replayBuffer_sample_cex :
    ReplayBuffer.sampleModel ([7] : List ℕ) [] = [] ∧
    ([] : List ℕ).length = min 0 ([7] : List ℕ).length ∧
    ([7] : List ℕ).length ≠ 0 := by
  decide

/-- C8 (amended): for a store of size `S`, `sample(n)` returns exactly
`min(n, S)` records, each drawn from the store (at the distinct in-range
positions of the `random.sample` draw, i.e. without replacement), and the
result is empty iff `min(n, S) = 0`; in particular an empty store yields an
empty result and is not an error. -/
theorem replayBuffer_sample_spec {α : Type} [Inhabited α] (buffer : List α)
    (n : ℕ) (pick : List ℕ) (hlen : pick.length = min n buffer.length)
    (hnd : pick.Nodup) (hb : ∀ i ∈ pick, i < buffer.length) :
    (ReplayBuffer.sampleModel buffer pick).length = min n buffer.length ∧
    (∀ y ∈ ReplayBuffer.sampleModel buffer pick, y ∈ buffer) ∧
    (ReplayBuffer.sampleModel buffer pick = [] ↔ min n buffer.length = 0) := by
  refine ⟨?_, ?_, ?_⟩
  · simp [ReplayBuffer.sampleModel, hlen]
  · intro y hy
    simp only [ReplayBuffer.sampleModel, List.mem_map] at hy
    obtain ⟨i, hi, rfl⟩ := hy
    rw [List.getD_eq_getElem buffer default (hb i hi)]
    exact List.getElem_mem _
  · rw [ReplayBuffer.sampleModel, List.map_eq_nil_iff, ← List.length_eq_zero, hlen]

theorem replayBuffer_sample_spec_witness :
    (ReplayBuffer.sampleModel ([7, 8] : List ℕ) [1, 0]).length = min 5 2 ∧
    (7 : ℕ) ∈ ([7, 8] : List ℕ) := by
  have h := replayBuffer_sample_spec ([7, 8] : List ℕ) 5 [1, 0]
    (by decide) (by decide) (by decide)
  exact ⟨h.1, h.2.1 7 (by decide)⟩

/-- The per-item sampling distribution of `PrioritizedReplayBuffer.sample`:
`probabilities = priorities ** alpha; probabilities /= probabilities.sum()`.
Floating-point powers `p ** alpha` are modelled by real `rpow`. -/
noncomputable def sampleProbs (alpha : ℝ) (ps : List ℝ) : List ℝ :=
  let raws := ps.map (fun p => p ^ alpha)
  raws.map (fun r => r / raws.sum)

/-- The pre-normalization importance weights of
`PrioritizedReplayBuffer.sample`:
`weights = (len(self.buffer) * probabilities[indices]) ** (-self.beta)`. -/
noncomputable def sampleWeightsRaw (beta : ℝ) (size : ℕ) (probs : List ℝ)
    (pick : List ℕ) : List ℝ :=
  pick.map (fun i => ((size : ℝ) * probs.getD i 0) ^ (-beta))

/-- `arr.max()` of a numpy array of nonnegative reals (the arrays this code
takes maxima of consist of `rpow` values, which are nonnegative). -/
def listMax (l : List ℝ) : ℝ := l.foldr max 0

/-- `PrioritizedReplayBuffer.sample`.  The draw of `np.random.choice` is
the index oracle `pick`; its library contract (a list of
`min(batch_size, size)` distinct indices, each with positive probability
under the supplied distribution) appears as hypotheses in the theorems.
On an empty buffer the code returns `[]`; on a nonempty buffer with an
empty draw (only possible for `batch_size = 0`), `weights.max()` raises
`ValueError` on the empty array, modelled by `Except.error`. -/
noncomputable def prioritizedSample {α : Type} [Inhabited α] (alpha beta : ℝ)
    (buffer : List α) (priorities : List ℝ) (pick : List ℕ) :
    Except Unit (List (α × ℝ)) :=
  if buffer.length = 0 then .ok []
  else if pick.isEmpty then .error ()
  else
    let probs := sampleProbs alpha priorities
    let wmax := listMax (sampleWeightsRaw beta buffer.length probs pick)
    .ok (pick.map (fun i =>
      (buffer.getD i default, ((buffer.length : ℝ) * probs.getD i 0) ^ (-beta) / wmax)))

theorem le_listMax (l : List ℝ) : ∀ x ∈ l, x ≤ listMax l := by
  induction l with
  | nil => intro x hx; exact absurd hx (List.not_mem_nil x)
  | cons y l ih =>
    intro x hx
    rcases List.mem_cons.mp hx with rfl | hx
    · exact le_max_left _ _
    · exact le_trans (ih x hx) (le_max_right _ _)

theorem listMax_pos (l : List ℝ) (hne : l ≠ []) (hpos : ∀ x ∈ l, 0 < x) :
    0 < listMax l := by
  cases l with
  | nil => exact absurd rfl hne
  | cons y t =>
    exact lt_of_lt_of_le (hpos y (List.mem_cons_self y t))
      (le_listMax _ y (List.mem_cons_self y t))

theorem listMax_map_div (l : List ℝ) (c : ℝ) (hc : 0 < c) :
    listMax (l.map (fun x => x / c)) = listMax l / c := by
  induction l with
  | nil => simp [listMax]
  | cons y l ih =>
    simp only [List.map_cons, listMax, List.foldr_cons] at ih ⊢
    rw [ih, max_div_div_right (le_of_lt hc)]

/-- C7 (counterexample): on a non-empty store, `sample(0)` does not return
the empty batch of `min(0, size) = 0` records the claim describes — the
code crashes (`weights.max()` on an empty numpy array raises
`ValueError`). -/
theorem prioritizedSample_cex :
    prioritizedSample (1 : ℝ) 1 ([5] : List ℕ) [1] [] = Except.error () ∧
    ([5] : List ℕ) ≠ [] := by
  constructor
  · rfl
  · simp

/-- C7 (amended): for every non-empty store and every draw of `n ≥ 1`
indices valid for the `np.random.choice` contract (distinct in-range
indices of positive probability under the normalized `priority^alpha`
distribution), `sample` succeeds and returns exactly `min(n, size)`
records, each paired with the weight
`(size * probability)^(-beta)` normalized by the batch maximum, so the
largest weight in the returned batch is exactly `1.0`. -/
theorem prioritizedSample_spec {α : Type} [Inhabited α] (alpha beta : ℝ)
    (buffer : List α) (priorities : List ℝ) (n : ℕ) (pick : List ℕ)
    (hne : buffer ≠ []) (hn : 0 < n)
    (hpicklen : pick.length = min n buffer.length) (hnd : pick.Nodup)
    (hbound : ∀ i ∈ pick, i < buffer.length)
    (hpos : ∀ i ∈ pick, 0 < (sampleProbs alpha priorities).getD i 0) :
    ∃ batch, prioritizedSample alpha beta buffer priorities pick = .ok batch ∧
      batch.length = min n buffer.length ∧
      batch = pick.map (fun i =>
        (buffer.getD i default,
          ((buffer.length : ℝ) * (sampleProbs alpha priorities).getD i 0) ^ (-beta)
            / listMax (sampleWeightsRaw beta buffer.length
                (sampleProbs alpha priorities) pick))) ∧
      listMax (batch.map Prod.snd) = 1 := by
  have hblen : buffer.length ≠ 0 := fun h => hne (List.length_eq_zero.mp h)
  have hpickne : pick ≠ [] := by
    intro h
    rw [h] at hpicklen
    simp only [List.length_nil] at hpicklen
    omega
  have hpickne' : pick.isEmpty = false := by
    cases pick with
    | nil => exact absurd rfl hpickne
    | cons i l => rfl
  have hraws_pos : ∀ w ∈ sampleWeightsRaw beta buffer.length
      (sampleProbs alpha priorities) pick, 0 < w := by
    intro w hw
    simp only [sampleWeightsRaw, List.mem_map] at hw
    obtain ⟨i, hi, rfl⟩ := hw
    apply Real.rpow_pos_of_pos
    apply mul_pos _ (hpos i hi)
    exact_mod_cast Nat.pos_of_ne_zero hblen
  have hraws_ne : sampleWeightsRaw beta buffer.length
      (sampleProbs alpha priorities) pick ≠ [] := by
    simp only [sampleWeightsRaw, ne_eq, List.map_eq_nil_iff]
    exact hpickne
  have hwmax : 0 < listMax (sampleWeightsRaw beta buffer.length
      (sampleProbs alpha priorities) pick) := listMax_pos _ hraws_ne hraws_pos
  refine ⟨_, ?_, ?_, rfl, ?_⟩
  · simp only [prioritizedSample, if_neg hblen, hpickne', Bool.false_eq_true, if_false]
  · simp [hpicklen]
  · have hsnd : (pick.map (fun i =>
        (buffer.getD i default,
          ((buffer.length : ℝ) * (sampleProbs alpha priorities).getD i 0) ^ (-beta)
            / listMax (sampleWeightsRaw beta buffer.length
                (sampleProbs alpha priorities) pick)))).map Prod.snd
        = (sampleWeightsRaw beta buffer.length
            (sampleProbs alpha priorities) pick).map
          (fun w => w / listMax (sampleWeightsRaw beta buffer.length
              (sampleProbs alpha priorities) pick)) := by
      simp only [List.map_map, sampleWeightsRaw]
      rfl
    rw [hsnd, listMax_map_div _ _ hwmax, div_self (ne_of_gt hwmax)]

theorem prioritizedSample_spec_witness :
    prioritizedSample (1 : ℝ) 1 ([5] : List ℕ) [1] [0]
      = Except.ok [((5 : ℕ), (1 : ℝ))] := by
  obtain ⟨batch, hok, _, hbatch, _⟩ :=
    prioritizedSample_spec (1 : ℝ) 1 ([5] : List ℕ) [1] 1 [0]
      (by simp) (by norm_num) (by simp) (by simp)
      (by intro i hi; simp only [List.mem_singleton] at hi; subst hi; simp)
      (by
        intro i hi
        simp only [List.mem_singleton] at hi
        subst hi
        norm_num [sampleProbs, Real.one_rpow])
  rw [hok, hbatch]
  norm_num [sampleProbs, sampleWeightsRaw, listMax, Real.one_rpow]

end AingryBirds
